import Mathlib

/-!
Verification of the graviola core specification against the repository's
mid-level source (src/mid/rsa_pub.rs, src/mid/aes_gcm.rs).

The mid-level Rust code is embedded shallowly below; the low-level
primitives it calls (PosInt Montgomery arithmetic, GHASH, the AES block
permutation, ct_equal, the stitched AES-CTR/GHASH loop) are not part of
the provided sources, so they are modelled from the specification's
descriptions of their contracts.  Machine integers are modelled as Nat;
byte strings as List Nat; fallible operations return Except.
-/

set_option maxRecDepth 100000

/-- Error kinds visible at the core boundary (src/error.rs as described by
the spec, section 7): OutOfRange for input validation, DecryptFailed for
AEAD authentication failure. -/
inductive Error where
  | OutOfRange
  | DecryptFailed
deriving DecidableEq, Repr

/-- Decidable equality of results, used so that witnesses at concrete
inputs can be settled by evaluation. -/
instance {ε α : Type} [DecidableEq ε] [DecidableEq α] : DecidableEq (Except ε α)
  | .error e1, .error e2 =>
    if h : e1 = e2 then .isTrue (by rw [h]) else .isFalse (by simp [h])
  | .error _, .ok _ => .isFalse (by simp)
  | .ok _, .error _ => .isFalse (by simp)
  | .ok a1, .ok a2 =>
    if h : a1 = a2 then .isTrue (by rw [h]) else .isFalse (by simp [h])

/-- PosInt<N>: a multi-precision nonnegative integer with a type-level
word bound N and a public logical word count `used`.  Modelled from the
spec (section 3): the value and the declared word length are the two
observable components; words at indices at or above `used` are zero. -/
structure PosInt (N : Nat) where
  val : Nat
  used : Nat
deriving DecidableEq, Repr

/-- Big-endian byte-string to natural number conversion. -/
def beBytesToNat : List Nat → Nat
  | [] => 0
  | b :: bs => b * 256 ^ bs.length + beBytesToNat bs

/-- Modelled from the spec: `from_bytes` is big-endian conversion that
fails (OutOfRange, section 7) if the source exceeds N*8 bytes; the
logical word count is derived from the input length, since leading-zero
normalization is forbidden (spec section 4.3). -/
def PosInt.from_bytes (N : Nat) (bs : List Nat) : Except Error (PosInt N) :=
  if bs.length > N * 8 then .error .OutOfRange
  else .ok ⟨beBytesToNat bs, (bs.length + 7) / 8⟩

/-- Modelled from the spec: `len_bytes` is a public query on the public
length metadata: the declared word count times 8. -/
def PosInt.len_bytes {N : Nat} (a : PosInt N) : Nat := a.used * 8

/-- Modelled from the spec: `is_even` queries the low bit of the value. -/
def PosInt.is_even {N : Nat} (a : PosInt N) : Bool := a.val % 2 == 0

/-- Modelled from the spec: `less_than` is a magnitude comparison. -/
def PosInt.less_than {N : Nat} (a b : PosInt N) : Bool := decide (a.val < b.val)

/-- Modelled from the spec: `PosInt::one()`, the integer 1. -/
def PosInt.one {N : Nat} : PosInt N := ⟨1, 1⟩

/-- The Montgomery radix R = 2^(64 * words(n)) for a modulus n
(spec section 3, Montgomery domain convention). -/
def montR {N : Nat} (n : PosInt N) : Nat := 2 ^ (64 * n.used)

/-- The multiplicative inverse of the Montgomery radix modulo n, realised
executably as ((n+1)/2)^(64*words(n)) mod n: for odd n, (n+1)/2 is the
inverse of 2 modulo n, so this value is R⁻¹ mod n. -/
def montRinv {N : Nat} (n : PosInt N) : Nat :=
  ((n.val + 1) / 2) ^ (64 * n.used) % n.val

/-- Modelled from the spec: `mont_mul(a, b, n, n0)` returns the unique
r < n with r ≡ a*b*R⁻¹ (mod n) (spec section 4.3); the result is at the
declared width of the modulus.  The reduction constant n0 is consumed by
the word-level algorithm and does not affect the value contract. -/
def PosInt.mont_mul {N : Nat} (a b n : PosInt N) (n0 : Nat) : PosInt N :=
  let _ := n0
  ⟨a.val * b.val * montRinv n % n.val, n.used⟩

/-- Modelled from the spec: `mont_sqr(a, n, n0)` is mont_mul(a, a, n, n0). -/
def PosInt.mont_sqr {N : Nat} (a n : PosInt N) (n0 : Nat) : PosInt N :=
  a.mont_mul a n n0

/-- Modelled from the spec: `mont_neg_inverse()` returns
n0 = −n⁻¹ mod 2^64, by Newton-style iteration on the low word
(spec section 4.3).  Five doublings from the seed a (an inverse of a
modulo 8 for odd a) reach 96 bits of precision, beyond the 64 required. -/
def PosInt.mont_neg_inverse {N : Nat} (n : PosInt N) : Nat :=
  let a := n.val % 2 ^ 64
  let step := fun x => x * (2 ^ 64 + 2 - a * x % 2 ^ 64) % 2 ^ 64
  let x := step (step (step (step (step a))))
  (2 ^ 64 - x) % 2 ^ 64

/-- Modelled from the spec: `montifier()` computes R² mod n
(spec sections 3 and 4.3). -/
def PosInt.montifier {N : Nat} (n : PosInt N) : PosInt N :=
  ⟨montR n ^ 2 % n.val, n.used⟩

/-- Modelled from the spec: `to_montgomery(montifier, n)` is
mont_mul(self, montifier, n, n0), yielding x*R mod n (spec section 4.3). -/
def PosInt.to_montgomery {N : Nat} (x montifier n : PosInt N) : PosInt N :=
  x.mont_mul montifier n n.mont_neg_inverse

/-- Modelled from the spec: `from_montgomery(n)` is mont_redc(self, n, n0),
which reduces by a factor of R, yielding x*R⁻¹ mod n (spec section 4.3). -/
def PosInt.from_montgomery {N : Nat} (x n : PosInt N) : PosInt N :=
  ⟨x.val * montRinv n % n.val, n.used⟩

/-! Constants from src/mid/rsa_pub.rs. -/

def MAX_PUBLIC_MODULUS_BITS : Nat := 8192
def MAX_PUBLIC_MODULUS_WORDS : Nat := MAX_PUBLIC_MODULUS_BITS / 64
def MAX_PUBLIC_MODULUS_BYTES : Nat := MAX_PUBLIC_MODULUS_BITS / 8
def MIN_PUBLIC_MODULUS_BITS : Nat := 2048
def MIN_PUBLIC_MODULUS_BYTES : Nat := MIN_PUBLIC_MODULUS_BITS / 8

/-- type RsaPosInt = low::PosInt<MAX_PUBLIC_MODULUS_WORDS> -/
abbrev RsaPosInt := PosInt MAX_PUBLIC_MODULUS_WORDS

/-- RsaPublicKey (src/mid/rsa_pub.rs): modulus n, public exponent e, and
the precomputed montifier (R² mod n), one (R mod n, the Montgomery form
of 1) and n0 (−n⁻¹ mod 2^64). -/
structure RsaPublicKey where
  n : RsaPosInt
  e : Nat
  montifier : RsaPosInt
  one : RsaPosInt
  n0 : Nat
deriving DecidableEq, Repr

/-- RsaPublicKey::new (src/mid/rsa_pub.rs lines 18-43): rejects an even
modulus, a modulus whose byte length is outside
[MIN_PUBLIC_MODULUS_BYTES, MAX_PUBLIC_MODULUS_BYTES], and e = 0; then
precomputes montifier, n0 and the Montgomery form of one. -/
def RsaPublicKey.new (n : RsaPosInt) (e : Nat) : Except Error RsaPublicKey :=
  let n_len := n.len_bytes
  if n.is_even
      || !(decide (MIN_PUBLIC_MODULUS_BYTES ≤ n_len)
            && decide (n_len ≤ MAX_PUBLIC_MODULUS_BYTES))
      || e == 0 then
    .error .OutOfRange
  else
    let montifier := n.montifier
    let n0 := n.mont_neg_inverse
    let one := (PosInt.one).mont_mul montifier n n0
    .ok ⟨n, e, montifier, one, n0⟩

/-- Fuel-bounded floor base-2 logarithm; the fuel is at least n at every
call from ilog2, so the fuel-0 match arm is never taken for n above 1. -/
def ilog2Go : Nat → Nat → Nat
  | 0, _ => 0
  | fuel + 1, n => if 2 ≤ n then ilog2Go fuel (n / 2) + 1 else 0

/-- u32::ilog2: the floor base-2 logarithm, Nat.log2 (defined
executably; see ilog2_eq_log2). -/
def ilog2 (n : Nat) : Nat := ilog2Go n n

theorem ilog2Go_eq_log2 : ∀ (fuel n : Nat), n ≤ fuel → ilog2Go fuel n = Nat.log2 n := by
  intro fuel
  induction fuel with
  | zero => intro n hn; interval_cases n; simp [ilog2Go, Nat.log2]
  | succ f ih =>
    intro n hn
    rw [ilog2Go, Nat.log2]
    by_cases h2 : 2 ≤ n
    · rw [if_pos h2, if_pos h2, ih (n / 2) (by omega)]
    · rw [if_neg h2, if_neg h2]

theorem ilog2_eq_log2 (n : Nat) : ilog2 n = Nat.log2 n := ilog2Go_eq_log2 n n le_rfl

/-- The square-and-multiply loop of RsaPublicKey::public_op
(src/mid/rsa_pub.rs lines 61-77): the counter argument is the number of
remaining iterations, so an invocation with i+1 processes bit i of e.
The Rust test `e & (1 << bit) == 1 << bit` is bit i of e, Nat.testBit.
The `first` flag suppresses the squaring on the first iteration. -/
def RsaPublicKey.expLoop (key : RsaPublicKey) (c_mont : RsaPosInt) :
    Nat → RsaPosInt → Bool → RsaPosInt
  | 0, accum, _ => accum
  | i + 1, accum, first =>
    let tmp := if first then accum else accum.mont_sqr key.n key.n0
    let accum' := if key.e.testBit i then tmp.mont_mul c_mont key.n key.n0 else tmp
    key.expLoop c_mont i accum' false

/-- RsaPublicKey::public_op (src/mid/rsa_pub.rs lines 50-81):
m = c^e mod n.  Rejects c ≥ n with OutOfRange, converts c to Montgomery
form, runs the left-to-right square-and-multiply loop over the bits of e
from ilog2(e) down to 0 starting from the Montgomery form of 1, and
drops the accumulator out of the Montgomery domain. -/
def RsaPublicKey.public_op (key : RsaPublicKey) (c : RsaPosInt) :
    Except Error RsaPosInt :=
  if !c.less_than key.n then
    .error .OutOfRange
  else
    let c_mont := c.to_montgomery key.montifier key.n
    let accum := key.expLoop c_mont (ilog2 key.e + 1) key.one true
    .ok (accum.from_montgomery key.n)

/-! AES-GCM (src/mid/aes_gcm.rs) and the low-level primitives it uses. -/

/-- Modelled from the spec: AesKey is an opaque key schedule offering a
single operation, encrypting a 16-byte block in place (spec section 3).
It is modelled as the block transformation itself. -/
def AesKey := List Nat → List Nat

/-- Modelled from the spec: ct_equal(a, b) returns true iff the two byte
slices are equal; for mismatched lengths returning false is permitted
(spec section 4.1). -/
def ct_equal (a b : List Nat) : Bool := decide (a = b)

/-- The GCM reducing constant: the bit-reflected polynomial
x^128 + x^7 + x^2 + x + 1 without its top term, as a 128-bit value. -/
def gfR : Nat := 0xE1 <<< 120

/-- One pass of the GF(2^128) multiply: the first argument counts the
remaining bits of x, so an invocation with i+1 processes bit i (bits of
x are consumed most-significant first, bit 127 down to bit 0). -/
def gfmulGo : Nat → Nat → Nat → Nat → Nat
  | 0, _, _, z => z
  | i + 1, x, v, z =>
    let z' := if x.testBit i then z ^^^ v else z
    let v' := if v.testBit 0 then (v >>> 1) ^^^ gfR else v >>> 1
    gfmulGo i x v' z'

/-- Modelled from the spec: multiplication in GF(2^128) with the GCM
reducing polynomial, bit-reflected convention (spec section 4.5). -/
def gfmul (x y : Nat) : Nat := gfmulGo 128 x y 0

/-- Modelled from the spec: GhashTable is a table precomputed
deterministically from the GHASH subkey H at key-install time; the
layout is an implementation choice (spec section 4.5), so it is modelled
as H itself. -/
structure GhashTable where
  h : Nat
deriving DecidableEq, Repr

/-- GhashTable::new(h). -/
def GhashTable.new (h : Nat) : GhashTable := ⟨h⟩

/-- Zero-extend a partial block on the right to 16 bytes
(spec section 4.5, padding rule). -/
def padBlock (b : List Nat) : List Nat := b ++ List.replicate (16 - b.length) 0

/-- Modelled from the spec: Ghash::add(block): X ← (X ⊕ block) · H, a
partial block being zero-extended on the right first (spec section 4.5). -/
def ghashAdd (h X : Nat) (block : List Nat) : Nat :=
  gfmul (X ^^^ beBytesToNat (padBlock block)) h

/-- Block-chunking loop for GHASH absorption.  The fuel argument (first)
only bounds the recursion and is at least the data length at every call
from ghashBlocks, so the match on fuel 0 is never taken on nonempty data. -/
def ghashBlocksGo (h : Nat) : Nat → Nat → List Nat → Nat
  | 0, X, _ => X
  | fuel + 1, X, data =>
    if data.length = 0 then X
    else if data.length ≤ 16 then ghashAdd h X data
    else ghashBlocksGo h fuel (ghashAdd h X (data.take 16)) (data.drop 16)

/-- Absorb a byte stream into GHASH as full 16-byte blocks, the final
partial block zero-padded; an empty tail is not absorbed
(spec sections 4.2 and 4.5). -/
def ghashBlocks (h X : Nat) (data : List Nat) : Nat :=
  ghashBlocksGo h data.length X data

/-- Big-endian 4-byte encoding of a 32-bit value. -/
def be32 (v : Nat) : List Nat := (List.range 4).map fun i => v / 2 ^ (8 * (3 - i)) % 256

/-- Big-endian 8-byte encoding of a 64-bit value (u64::to_be_bytes). -/
def be64 (v : Nat) : List Nat := (List.range 8).map fun i => v / 2 ^ (8 * (7 - i)) % 256

/-- Big-endian 16-byte encoding of a 128-bit value (Ghash::into_bytes). -/
def natToBe16 (x : Nat) : List Nat :=
  (List.range 16).map fun i => x / 2 ^ (8 * (15 - i)) % 256

/-- Block-chunking loop for the CTR keystream.  The fuel argument only
bounds the recursion and is at least the buffer length at every call
from ctrApply, so the match on fuel 0 is never taken on a nonempty
buffer. -/
def ctrApplyGo (E : AesKey) (n12 : List Nat) : Nat → Nat → List Nat → List Nat
  | 0, _, _ => []
  | fuel + 1, ctr, buf =>
    if buf.length = 0 then []
    else
      let pad := E (n12 ++ be32 (ctr % 2 ^ 32))
      List.zipWith Nat.xor (buf.take 16) pad
        ++ ctrApplyGo E n12 fuel (ctr + 1) (buf.drop 16)

/-- Modelled from the spec: the CTR keystream application.  Block j of
the buffer (0-indexed) is XORed with E(nonce ∥ ctr+j) where the 32-bit
counter wraps modulo 2^32 (spec section 4.6, counter stream). -/
def ctrApply (E : AesKey) (n12 : List Nat) (ctr : Nat) (buf : List Nat) : List Nat :=
  ctrApplyGo E n12 buf.length ctr buf

/-- Modelled from the spec: the stitched low-level AES-GCM encryption
(low::aes_gcm::encrypt), in its sequential model (spec sections 4.6 and
5): GHASH ingests the AAD first, then each ciphertext block after it is
produced; the counter stream starts one past the Y0 block handed in. -/
def lowGcmEncrypt (E : AesKey) (h : Nat) (y0 aad buf : List Nat) :
    List Nat × Nat :=
  let X1 := ghashBlocks h 0 aad
  let ct := ctrApply E (y0.take 12) (beBytesToNat (y0.drop 12) + 1) buf
  let X2 := ghashBlocks h X1 ct
  (ct, X2)

/-- Modelled from the spec: the stitched low-level AES-GCM decryption
(low::aes_gcm::decrypt): GHASH sees each ciphertext block before it is
XOR-decrypted, so it absorbs the input buffer itself (spec section 4.6). -/
def lowGcmDecrypt (E : AesKey) (h : Nat) (y0 aad buf : List Nat) :
    List Nat × Nat :=
  let X1 := ghashBlocks h 0 aad
  let X2 := ghashBlocks h X1 buf
  let pt := ctrApply E (y0.take 12) (beBytesToNat (y0.drop 12) + 1) buf
  (pt, X2)

/-- AesGcm (src/mid/aes_gcm.rs): the AES key and the precomputed GHASH
table. -/
structure AesGcm where
  key : AesKey
  gh : GhashTable

/-- AesGcm::new (src/mid/aes_gcm.rs lines 11-20): encrypt the all-zero
16-byte block, read it as a big-endian u128 to obtain the GHASH subkey
H, and precompute the GhashTable from it. -/
def AesGcm.new (key : AesKey) : AesGcm :=
  let h := key (List.replicate 16 0)
  let h' := beBytesToNat h
  let gh := GhashTable.new h'
  ⟨key, gh⟩

/-- AesGcm::nonce_to_y0 (src/mid/aes_gcm.rs lines 87-92): a 16-byte
block of zeros whose first 12 bytes are the nonce and whose byte 15 is
set to 0x01. -/
def AesGcm.nonce_to_y0 (nonce : List Nat) : List Nat :=
  ((nonce.take 12 ++ List.replicate (16 - (nonce.take 12).length) 0).set 15 1)

/-- AesGcm::encrypt (src/mid/aes_gcm.rs lines 22-50): returns the
ciphertext and the tag.  The in-place buffer is modelled as the first
component of the result. -/
def AesGcm.encrypt (g : AesGcm) (nonce aad buf : List Nat) :
    List Nat × List Nat :=
  let counter := AesGcm.nonce_to_y0 nonce
  let e_y0 := g.key counter
  let (ct, X) := lowGcmEncrypt g.key g.gh.h counter aad buf
  let lengths := be64 (aad.length * 8) ++ be64 (buf.length * 8)
  let Xfin := ghashAdd g.gh.h X lengths
  let final_xi := natToBe16 Xfin
  (ct, List.zipWith Nat.xor final_xi e_y0)

/-- AesGcm::decrypt (src/mid/aes_gcm.rs lines 52-85): recompute the tag
over the AAD and the ciphertext, compare with ct_equal, and on mismatch
overwrite the in-place buffer with zeros before returning DecryptFailed.
The in-place buffer is modelled as the second component of the result. -/
def AesGcm.decrypt (g : AesGcm) (nonce aad buf tag : List Nat) :
    Except Error Unit × List Nat :=
  let counter := AesGcm.nonce_to_y0 nonce
  let e_y0 := g.key counter
  let (pt, X) := lowGcmDecrypt g.key g.gh.h counter aad buf
  let lengths := be64 (aad.length * 8) ++ be64 (buf.length * 8)
  let Xfin := ghashAdd g.gh.h X lengths
  let actual_tag := List.zipWith Nat.xor (natToBe16 Xfin) e_y0
  if ct_equal actual_tag tag then (.ok (), pt)
  else (.error .DecryptFailed, List.replicate buf.length 0)

/-- The tag AesGcm::decrypt recomputes over a given associated data and
ciphertext, and AesGcm::encrypt emits when the data is the ciphertext it
produced; named here so that theorems can speak about it. -/
def AesGcm.gcmTag (g : AesGcm) (nonce aad data : List Nat) : List Nat :=
  let counter := AesGcm.nonce_to_y0 nonce
  let e_y0 := g.key counter
  let X := ghashBlocks g.gh.h (ghashBlocks g.gh.h 0 aad) data
  let lengths := be64 (aad.length * 8) ++ be64 (data.length * 8)
  let Xfin := ghashAdd g.gh.h X lengths
  List.zipWith Nat.xor (natToBe16 Xfin) e_y0

/-! RSA proofs -/

theorem montR_mul_montRinv {N : Nat} (n : PosInt N) (h : n.val % 2 = 1) :
    montR n * montRinv n ≡ 1 [MOD n.val] := by
  have h2 : 2 * ((n.val + 1) / 2) = n.val + 1 := by omega
  have hstep : (2 : Nat) * ((n.val + 1) / 2) ≡ 1 [MOD n.val] := by
    rw [h2]
    have h3 : (n.val + 1) % n.val = 1 % n.val := Nat.add_mod_left n.val 1
    simp only [Nat.ModEq]
    omega
  calc montR n * montRinv n
      ≡ montR n * (((n.val + 1) / 2) ^ (64 * n.used)) [MOD n.val] :=
        Nat.ModEq.mul_left _ (Nat.mod_modEq _ _)
    _ = (2 * ((n.val + 1) / 2)) ^ (64 * n.used) := by
        rw [montR, mul_pow]
    _ ≡ 1 ^ (64 * n.used) [MOD n.val] := hstep.pow _
    _ = 1 := one_pow _

theorem montR_mul_montRinv_zmod {N : Nat} (n : PosInt N) (h : n.val % 2 = 1) :
    (montR n : ZMod n.val) * (montRinv n : ZMod n.val) = 1 := by
  have h1 := montR_mul_montRinv n h
  have hcast := (ZMod.natCast_eq_natCast_iff _ _ _).mpr h1
  push_cast at hcast
  exact hcast

theorem mont_mul_val_zmod {N : Nat} (a b n : PosInt N) (n0 : Nat) :
    ((a.mont_mul b n n0).val : ZMod n.val)
      = (a.val : ZMod n.val) * (b.val : ZMod n.val) * (montRinv n : ZMod n.val) := by
  show (((a.val * b.val * montRinv n) % n.val : Nat) : ZMod n.val) = _
  rw [ZMod.natCast_mod]
  push_cast
  ring

theorem from_montgomery_val_zmod {N : Nat} (x n : PosInt N) :
    ((x.from_montgomery n).val : ZMod n.val)
      = (x.val : ZMod n.val) * (montRinv n : ZMod n.val) := by
  show (((x.val * montRinv n) % n.val : Nat) : ZMod n.val) = _
  rw [ZMod.natCast_mod]
  push_cast
  ring

theorem bit_split {e i : Nat} : e % 2 ^ (i + 1) = 2 ^ i * (e / 2 ^ i % 2) + e % 2 ^ i := by
  rw [pow_succ, Nat.mod_mul]
  omega

theorem expLoop_false_zmod (key : RsaPublicKey) (cmont : RsaPosInt) (c : Nat)
    (hR : (montR key.n : ZMod key.n.val) * (montRinv key.n : ZMod key.n.val) = 1)
    (hcm : (cmont.val : ZMod key.n.val) = (c : ZMod key.n.val) * (montR key.n : ZMod key.n.val)) :
    ∀ (i : Nat) (accum : RsaPosInt) (t : Nat),
      (accum.val : ZMod key.n.val) = (c : ZMod key.n.val) ^ t * (montR key.n : ZMod key.n.val) →
      ((key.expLoop cmont i accum false).val : ZMod key.n.val)
        = (c : ZMod key.n.val) ^ (t * 2 ^ i + key.e % 2 ^ i) * (montR key.n : ZMod key.n.val) := by
  intro i
  induction i with
  | zero =>
    intro accum t hacc
    simpa [RsaPublicKey.expLoop, Nat.mod_one] using hacc
  | succ i ih =>
    intro accum t hacc
    rw [RsaPublicKey.expLoop]
    simp only [Bool.false_eq_true, if_false]
    have htmp : ((accum.mont_sqr key.n key.n0).val : ZMod key.n.val)
        = (c : ZMod key.n.val) ^ (2 * t) * (montR key.n : ZMod key.n.val) := by
      rw [PosInt.mont_sqr, mont_mul_val_zmod, hacc]
      calc ((c : ZMod key.n.val) ^ t * montR key.n) * ((c : ZMod key.n.val) ^ t * montR key.n)
            * (montRinv key.n : ZMod key.n.val)
          = (c : ZMod key.n.val) ^ (2 * t) * (montR key.n : ZMod key.n.val)
            * ((montR key.n : ZMod key.n.val) * (montRinv key.n : ZMod key.n.val)) := by
            ring
        _ = (c : ZMod key.n.val) ^ (2 * t) * (montR key.n : ZMod key.n.val) := by
            rw [hR, mul_one]
    by_cases htb : key.e.testBit i
    · rw [if_pos htb]
      have hbit : key.e / 2 ^ i % 2 = 1 := by
        have hb := Nat.testBit_to_div_mod (x := key.e) (i := i)
        rw [htb] at hb
        exact decide_eq_true_eq.mp hb.symm
      have hstep : (((accum.mont_sqr key.n key.n0).mont_mul cmont key.n key.n0).val : ZMod key.n.val)
          = (c : ZMod key.n.val) ^ (2 * t + 1) * (montR key.n : ZMod key.n.val) := by
        rw [mont_mul_val_zmod, htmp, hcm]
        calc ((c : ZMod key.n.val) ^ (2 * t) * montR key.n)
              * ((c : ZMod key.n.val) * montR key.n) * (montRinv key.n : ZMod key.n.val)
            = (c : ZMod key.n.val) ^ (2 * t + 1) * (montR key.n : ZMod key.n.val)
              * ((montR key.n : ZMod key.n.val) * (montRinv key.n : ZMod key.n.val)) := by
              ring
          _ = (c : ZMod key.n.val) ^ (2 * t + 1) * (montR key.n : ZMod key.n.val) := by
              rw [hR, mul_one]
      rw [ih _ (2 * t + 1) hstep]
      congr 1
      congr 1
      rw [bit_split, hbit]
      ring
    · rw [if_neg htb]
      have hbit : key.e / 2 ^ i % 2 = 0 := by
        have hb := Nat.testBit_to_div_mod (x := key.e) (i := i)
        simp only [htb] at hb
        have hb2 : ¬ (key.e / 2 ^ i % 2 = 1) := by
          intro hcontra
          rw [hcontra] at hb
          simp at hb
        omega
      rw [ih _ (2 * t) htmp]
      congr 1
      congr 1
      rw [bit_split, hbit]
      ring

theorem new_ok_elim (n : RsaPosInt) (e : Nat) (key : RsaPublicKey)
    (hk : RsaPublicKey.new n e = .ok key) :
    n.val % 2 = 1 ∧ e ≠ 0 ∧
      key = ⟨n, e, n.montifier,
             (PosInt.one).mont_mul n.montifier n n.mont_neg_inverse,
             n.mont_neg_inverse⟩ := by
  simp only [RsaPublicKey.new] at hk
  split at hk
  · exact absurd hk (by simp)
  · rename_i hcond
    simp only [Bool.or_eq_true, not_or, PosInt.is_even, beq_iff_eq] at hcond
    obtain ⟨⟨hev, _⟩, he⟩ := hcond
    refine ⟨by omega, he, ?_⟩
    injection hk with hk
    exact hk.symm

theorem montifier_val_zmod {N : Nat} (n : PosInt N) :
    ((PosInt.montifier n).val : ZMod n.val) = (montR n : ZMod n.val) ^ 2 := by
  show ((montR n ^ 2 % n.val : Nat) : ZMod n.val) = _
  rw [ZMod.natCast_mod]
  push_cast
  ring

theorem public_op_spec (n : RsaPosInt) (e : Nat) (key : RsaPublicKey) (c : RsaPosInt)
    (hk : RsaPublicKey.new n e = .ok key) (hc : c.val < n.val) :
    key.public_op c = .ok ⟨c.val ^ e % n.val, n.used⟩ := by
  obtain ⟨hodd, he, hkey⟩ := new_ok_elim n e key hk
  subst hkey
  set m := n.val with hm
  have hR : (montR n : ZMod m) * (montRinv n : ZMod m) = 1 := montR_mul_montRinv_zmod n hodd
  -- the public_op if-guard passes
  simp only [RsaPublicKey.public_op]
  have hguard : (!(c.less_than n)) ≠ true := by simp [PosInt.less_than, hc]
  rw [if_neg hguard]
  -- c_mont is c * R in ZMod m
  have hcm : ((PosInt.to_montgomery c (PosInt.montifier n) n).val : ZMod m)
      = (c.val : ZMod m) * (montR n : ZMod m) := by
    rw [PosInt.to_montgomery, mont_mul_val_zmod, montifier_val_zmod]
    calc (c.val : ZMod m) * (montR n : ZMod m) ^ 2 * (montRinv n : ZMod m)
        = (c.val : ZMod m) * (montR n : ZMod m)
          * ((montR n : ZMod m) * (montRinv n : ZMod m)) := by ring
      _ = (c.val : ZMod m) * (montR n : ZMod m) := by rw [hR, mul_one]
  -- one is R in ZMod m
  have hone : (((PosInt.one).mont_mul (PosInt.montifier n) n n.mont_neg_inverse).val : ZMod m)
      = (montR n : ZMod m) := by
    rw [mont_mul_val_zmod, montifier_val_zmod]
    show ((PosInt.one (N := MAX_PUBLIC_MODULUS_WORDS)).val : ZMod m) * _ * _ = _
    rw [PosInt.one]
    calc ((1 : Nat) : ZMod m) * (montR n : ZMod m) ^ 2 * (montRinv n : ZMod m)
        = (montR n : ZMod m) * ((montR n : ZMod m) * (montRinv n : ZMod m)) := by
          push_cast; ring
      _ = (montR n : ZMod m) := by rw [hR, mul_one]
  -- the top bit of e
  set L := Nat.log2 e with hL
  have he1 : 1 ≤ e := Nat.one_le_iff_ne_zero.mpr he
  have hlow : 2 ^ L ≤ e := Nat.log2_self_le he
  have hhigh : e < 2 ^ (L + 1) := Nat.lt_log2_self
  have hdiv : e / 2 ^ L = 1 := by
    apply Nat.div_eq_of_lt_le <;> omega
  have htopbit : e.testBit L = true := by
    rw [Nat.testBit_to_div_mod, hdiv]
    simp
  -- run the loop
  rw [ilog2_eq_log2, ← hL, RsaPublicKey.expLoop]
  simp only [if_true]
  rw [if_pos htopbit]
  have hacc1 : (((PosInt.one.mont_mul (PosInt.montifier n) n n.mont_neg_inverse).mont_mul
        (PosInt.to_montgomery c (PosInt.montifier n) n) n n.mont_neg_inverse).val : ZMod m)
      = (c.val : ZMod m) ^ 1 * (montR n : ZMod m) := by
    rw [mont_mul_val_zmod, hone, hcm]
    calc (montR n : ZMod m) * ((c.val : ZMod m) * (montR n : ZMod m)) * (montRinv n : ZMod m)
        = (c.val : ZMod m) * (montR n : ZMod m)
          * ((montR n : ZMod m) * (montRinv n : ZMod m)) := by ring
      _ = (c.val : ZMod m) ^ 1 * (montR n : ZMod m) := by rw [hR, mul_one, pow_one]
  have hloop := expLoop_false_zmod
    ⟨n, e, n.montifier, (PosInt.one).mont_mul n.montifier n n.mont_neg_inverse,
      n.mont_neg_inverse⟩
    (PosInt.to_montgomery c (PosInt.montifier n) n) c.val hR hcm L _ 1 hacc1
  have hexp : 1 * 2 ^ L + e % 2 ^ L = e := by
    have hdm := Nat.div_add_mod e (2 ^ L)
    rw [hdiv] at hdm
    omega
  rw [hexp] at hloop
  -- final from_montgomery
  have hfin : ((RsaPublicKey.expLoop
        ⟨n, e, n.montifier, (PosInt.one).mont_mul n.montifier n n.mont_neg_inverse,
          n.mont_neg_inverse⟩
        (PosInt.to_montgomery c (PosInt.montifier n) n) L
        ((PosInt.one.mont_mul (PosInt.montifier n) n n.mont_neg_inverse).mont_mul
          (PosInt.to_montgomery c (PosInt.montifier n) n) n n.mont_neg_inverse)
        false).val * montRinv n) % m = c.val ^ e % m := by
    refine (ZMod.natCast_eq_natCast_iff _ _ _).mp ?_
    push_cast
    rw [hloop]
    calc (c.val : ZMod m) ^ e * (montR n : ZMod m) * (montRinv n : ZMod m)
        = (c.val : ZMod m) ^ e * ((montR n : ZMod m) * (montRinv n : ZMod m)) := by ring
      _ = (c.val : ZMod m) ^ e := by rw [hR, mul_one]
  exact congrArg Except.ok (congrArg (fun v => PosInt.mk v n.used) hfin)

/-! Claim theorems: RSA -/

/-- Witness modulus: an odd 2048-bit modulus at 32 words (256 bytes). -/
def rsaWitnessN : RsaPosInt := ⟨2 ^ 2047 + 9, 32⟩

/-- The key RsaPublicKey::new constructs for rsaWitnessN with e = 1. -/
def rsaWitnessKey : RsaPublicKey :=
  ⟨rsaWitnessN, 1, rsaWitnessN.montifier,
   (PosInt.one).mont_mul rsaWitnessN.montifier rsaWitnessN rsaWitnessN.mont_neg_inverse,
   rsaWitnessN.mont_neg_inverse⟩

/-- C1: for every valid RsaPublicKey {n, e} and ciphertext c < n,
RsaPublicKey::public_op(c) returns Ok(m) with m = c^e mod n, computed by
the transcribed left-to-right square-and-multiply loop (Montgomery form
via to_montgomery, accumulator starting at one_mont, bits of e scanned
from ilog2(e) down to 0, squaring skipped on the first iteration,
multiplication by c_mont exactly on set bits, final from_montgomery). -/
theorem rsa_public_op_modexp (n : RsaPosInt) (e : Nat) (key : RsaPublicKey)
    (c : RsaPosInt) (hk : RsaPublicKey.new n e = .ok key) (hc : c.val < n.val) :
    key.public_op c = .ok ⟨c.val ^ e % n.val, n.used⟩ :=
  public_op_spec n e key c hk hc

theorem rsa_public_op_modexp_witness :
    RsaPublicKey.new rsaWitnessN 1 = .ok rsaWitnessKey ∧
    (⟨9, 32⟩ : RsaPosInt).val < rsaWitnessN.val ∧
    rsaWitnessKey.public_op ⟨9, 32⟩ = .ok ⟨9, 32⟩ := by
  refine ⟨rfl, by decide, ?_⟩
  exact rsa_public_op_modexp rsaWitnessN 1 rsaWitnessKey ⟨9, 32⟩ rfl (by decide)

/-- C7: public_op(c) returns the OutOfRange error exactly when c ≥ n, and
OutOfRange is the only error it can return (the c < n check is the guard
of public_op, before any Montgomery-domain computation on c). -/
theorem rsa_public_op_error_iff (key : RsaPublicKey) (c : RsaPosInt) (err : Error) :
    key.public_op c = .error err ↔ (err = .OutOfRange ∧ ¬ c.val < key.n.val) := by
  simp only [RsaPublicKey.public_op]
  by_cases h : c.val < key.n.val
  · have hguard : (!(c.less_than key.n)) ≠ true := by simp [PosInt.less_than, h]
    rw [if_neg hguard]
    simp [h]
  · have hguard : (!(c.less_than key.n)) = true := by simp [PosInt.less_than, h]
    rw [if_pos hguard]
    constructor
    · intro he
      injection he with he
      exact ⟨he.symm, h⟩
    · intro he
      rw [he.1]

theorem rsa_public_op_error_iff_witness :
    rsaWitnessKey.public_op ⟨rsaWitnessN.val + 1, 32⟩ = .error .OutOfRange :=
  (rsa_public_op_error_iff rsaWitnessKey ⟨rsaWitnessN.val + 1, 32⟩ .OutOfRange).mpr
    ⟨rfl, by decide⟩

/-- C10: a modulus accepted with exponent e = 1 gives an identity
public_op: for c < n, public_op(c) = Ok(c). -/
theorem rsa_public_op_exponent_one (n : RsaPosInt) (key : RsaPublicKey)
    (c : RsaPosInt) (hk : RsaPublicKey.new n 1 = .ok key) (hc : c.val < n.val) :
    key.public_op c = .ok ⟨c.val, n.used⟩ := by
  have h := public_op_spec n 1 key c hk hc
  rwa [pow_one, Nat.mod_eq_of_lt hc] at h

theorem rsa_public_op_exponent_one_witness :
    RsaPublicKey.new rsaWitnessN 1 = .ok rsaWitnessKey ∧
    rsaWitnessKey.public_op ⟨123456789, 32⟩ = .ok ⟨123456789, 32⟩ := by
  refine ⟨rfl, ?_⟩
  exact rsa_public_op_exponent_one rsaWitnessN rsaWitnessKey ⟨123456789, 32⟩ rfl (by decide)

theorem new_cond_iff (n : RsaPosInt) (e : Nat) :
    (n.is_even
      || !(decide (MIN_PUBLIC_MODULUS_BYTES ≤ n.len_bytes)
            && decide (n.len_bytes ≤ MAX_PUBLIC_MODULUS_BYTES))
      || e == 0) = true
    ↔ (n.val % 2 = 0 ∨ n.used * 8 < MIN_PUBLIC_MODULUS_BYTES
        ∨ MAX_PUBLIC_MODULUS_BYTES < n.used * 8 ∨ e = 0) := by
  simp [PosInt.is_even, PosInt.len_bytes, Nat.not_le]
  tauto

theorem beBytesToNat_lt :
    ∀ (bs : List Nat), (∀ b ∈ bs, b < 256) → beBytesToNat bs < 256 ^ bs.length := by
  intro bs
  induction bs with
  | nil => intro _; simp [beBytesToNat]
  | cons b tl ih =>
    intro h
    simp only [beBytesToNat, List.length_cons]
    have hb : b < 256 := h b (by simp)
    have htl : beBytesToNat tl < 256 ^ tl.length := ih (fun x hx => h x (by simp [hx]))
    have hmul : b * 256 ^ tl.length ≤ 255 * 256 ^ tl.length :=
      Nat.mul_le_mul_right _ (by omega)
    have hpow : 256 ^ (tl.length + 1) = 255 * 256 ^ tl.length + 256 ^ tl.length := by
      ring
    omega

/-- C3 (amended): RsaPublicKey::new returns OutOfRange exactly when the
modulus is even, its declared byte length (8 times its word count) is
below MIN_PUBLIC_MODULUS_BYTES (256) or above MAX_PUBLIC_MODULUS_BYTES
(1024), or e = 0.  A modulus of 8193 bits cannot even be presented: its
encoding needs more than 1024 bytes and from_bytes rejects it with
OutOfRange.  A 2047-bit modulus, however, occupies exactly 256 bytes
(32 words) and passes the length check (see the counterexample theorem
rsa_new_accepts_2047_bit_modulus). -/
theorem rsa_new_out_of_range_iff (n : RsaPosInt) (e : Nat) :
    (RsaPublicKey.new n e = .error .OutOfRange ↔
      (n.val % 2 = 0 ∨ n.used * 8 < MIN_PUBLIC_MODULUS_BYTES
        ∨ MAX_PUBLIC_MODULUS_BYTES < n.used * 8 ∨ e = 0)) ∧
    (∀ bs : List Nat, MAX_PUBLIC_MODULUS_BYTES < bs.length →
      PosInt.from_bytes MAX_PUBLIC_MODULUS_WORDS bs = .error .OutOfRange) ∧
    (∀ bs : List Nat, (∀ b ∈ bs, b < 256) →
      2 ^ MAX_PUBLIC_MODULUS_BITS ≤ beBytesToNat bs →
      PosInt.from_bytes MAX_PUBLIC_MODULUS_WORDS bs = .error .OutOfRange) := by
  have hlen : ∀ bs : List Nat, MAX_PUBLIC_MODULUS_BYTES < bs.length →
      PosInt.from_bytes MAX_PUBLIC_MODULUS_WORDS bs = .error .OutOfRange := by
    intro bs hbs
    have hcond : bs.length > MAX_PUBLIC_MODULUS_WORDS * 8 := by
      have h8 : MAX_PUBLIC_MODULUS_WORDS * 8 = MAX_PUBLIC_MODULUS_BYTES := by decide
      omega
    simp only [PosInt.from_bytes]
    rw [if_pos hcond]
  refine ⟨?_, hlen, ?_⟩
  · simp only [RsaPublicKey.new]
    split
    · rename_i hcond
      exact ⟨fun _ => (new_cond_iff n e).mp hcond, fun _ => rfl⟩
    · rename_i hcond
      constructor
      · intro h
        exact absurd h (by simp)
      · intro hP
        exact absurd ((new_cond_iff n e).mpr hP) hcond
  · intro bs hb hval
    apply hlen
    by_contra hle
    push_neg at hle
    have h1 : beBytesToNat bs < 256 ^ bs.length := beBytesToNat_lt bs hb
    have h2 : (256 : Nat) ^ bs.length ≤ 256 ^ MAX_PUBLIC_MODULUS_BYTES :=
      Nat.pow_le_pow_right (by omega) hle
    have h3 : (256 : Nat) ^ MAX_PUBLIC_MODULUS_BYTES = 2 ^ MAX_PUBLIC_MODULUS_BITS := by
      have h256 : (256 : Nat) = 2 ^ 8 := by norm_num
      rw [h256, ← pow_mul]
      norm_num [MAX_PUBLIC_MODULUS_BYTES, MAX_PUBLIC_MODULUS_BITS]
    omega

theorem rsa_new_out_of_range_iff_witness :
    RsaPublicKey.new ⟨2 ^ 2047 + 8, 32⟩ 65537 = .error .OutOfRange ∧
    PosInt.from_bytes MAX_PUBLIC_MODULUS_WORDS (List.replicate 1025 0)
      = .error .OutOfRange := by
  constructor
  · exact (rsa_new_out_of_range_iff ⟨2 ^ 2047 + 8, 32⟩ 65537).1.mpr (Or.inl (by decide))
  · exact (rsa_new_out_of_range_iff ⟨0, 0⟩ 0).2.1 (List.replicate 1025 0)
      (by simp [MAX_PUBLIC_MODULUS_BYTES, MAX_PUBLIC_MODULUS_BITS])

/-- Absorbing leading zero bytes does not change the value of a
big-endian byte string. -/
theorem beBytesToNat_replicate_zero_append (k : Nat) (tl : List Nat) :
    beBytesToNat (List.replicate k 0 ++ tl) = beBytesToNat tl := by
  induction k with
  | zero => simp
  | succ j ih => simp [List.replicate_succ, beBytesToNat, ih]

/-- The 256-byte big-endian encoding of the 2047-bit odd modulus
2^2046 + 1: a leading 0x40 byte, 254 zero bytes and a final 1. -/
def bytes2047 : List Nat := 64 :: (List.replicate 254 0 ++ [1])

/-- The RsaPosInt from_bytes builds from bytes2047: 32 words. -/
def n2047 : RsaPosInt := ⟨2 ^ 2046 + 1, 32⟩

/-- C3 counterexample: the 2047-bit odd modulus 2^2046 + 1, presented in
its natural 256-byte encoding, is accepted by RsaPublicKey::new with
e = 65537, contradicting the claim that 2047-bit moduli are rejected
with OutOfRange: its declared length is 32 words = 256 bytes, inside
[MIN_PUBLIC_MODULUS_BYTES, MAX_PUBLIC_MODULUS_BYTES]. -/
theorem rsa_new_accepts_2047_bit_modulus :
    PosInt.from_bytes MAX_PUBLIC_MODULUS_WORDS bytes2047 = .ok n2047 ∧
    2 ^ 2046 ≤ n2047.val ∧ n2047.val < 2 ^ 2047 ∧ n2047.val % 2 = 1 ∧
    (RsaPublicKey.new n2047 65537).isOk = true := by
  have hlen : bytes2047.length = 256 := by
    simp [bytes2047]
  have hval : beBytesToNat bytes2047 = 2 ^ 2046 + 1 := by
    show 64 * 256 ^ (List.replicate 254 0 ++ [1]).length
        + beBytesToNat (List.replicate 254 0 ++ [1]) = 2 ^ 2046 + 1
    rw [beBytesToNat_replicate_zero_append]
    have hl : (List.replicate 254 0 ++ [1] : List Nat).length = 255 := by simp
    rw [hl]
    decide
  refine ⟨?_, by decide, by decide, by decide, by decide⟩
  simp only [PosInt.from_bytes]
  rw [if_neg (show ¬ bytes2047.length > MAX_PUBLIC_MODULUS_WORDS * 8 by
    rw [hlen]
    norm_num [MAX_PUBLIC_MODULUS_WORDS, MAX_PUBLIC_MODULUS_BITS])]
  rw [hval, hlen]
  rfl

/-! Claim theorems: AES-GCM -/

/-- The identity block transformation, standing in for an arbitrary
opaque AES permutation in witnesses. -/
def idE : AesKey := fun b => b

/-- Witness AesGcm handle built from the identity permutation. -/
def gcmW : AesGcm := AesGcm.new idE

/-- Witness 12-byte nonce. -/
def nonceW : List Nat := List.replicate 12 0

theorem nonce_to_y0_spec (nonce : List Nat) (h : nonce.length = 12) :
    AesGcm.nonce_to_y0 nonce = nonce ++ [0, 0, 0, 1] := by
  have htake : nonce.take 12 = nonce := List.take_of_length_le (by omega)
  have h1 : AesGcm.nonce_to_y0 nonce = (nonce ++ [0, 0, 0, 0]).set 15 1 := by
    simp only [AesGcm.nonce_to_y0, htake, h]
    rfl
  have h2 : (nonce ++ [0, 0, 0, 0]).set 15 1 = nonce ++ [0, 0, 0, 1] := by
    rw [List.set_append_right _ _ (by omega), h]
    rfl
  exact h1.trans h2

theorem nonce_to_y0_length (nonce : List Nat) (h : nonce.length = 12) :
    (AesGcm.nonce_to_y0 nonce).length = 16 := by
  rw [nonce_to_y0_spec nonce h]
  simp [h]

/-- C6: for a 12-byte nonce the initial counter block Y0 is
nonce ∥ 0x00000001: bytes 0..11 are the nonce, bytes 12..14 are zero and
byte 15 is 0x01. -/
theorem aes_gcm_y0_layout (nonce : List Nat) (h : nonce.length = 12) :
    AesGcm.nonce_to_y0 nonce = nonce ++ [0, 0, 0, 1]
    ∧ (AesGcm.nonce_to_y0 nonce).length = 16 :=
  ⟨nonce_to_y0_spec nonce h, nonce_to_y0_length nonce h⟩

theorem aes_gcm_y0_layout_witness :
    AesGcm.nonce_to_y0 nonceW = nonceW ++ [0, 0, 0, 1] :=
  (aes_gcm_y0_layout nonceW (by decide)).1

/-- C8: AesGcm::new derives the GHASH subkey H by encrypting the
all-zero 16-byte block, reading it as a big-endian u128, and builds the
GhashTable deterministically from that H alone at key-install time: the
table depends on nothing but E(0^128), and the handle stores the key
unchanged. -/
theorem aes_gcm_new_ghash_subkey (E E' : AesKey) :
    (AesGcm.new E).gh = GhashTable.new (beBytesToNat (E (List.replicate 16 0)))
    ∧ (AesGcm.new E).key = E
    ∧ (E (List.replicate 16 0) = E' (List.replicate 16 0) →
        (AesGcm.new E).gh = (AesGcm.new E').gh) := by
  refine ⟨rfl, rfl, fun h => ?_⟩
  show GhashTable.new (beBytesToNat (E (List.replicate 16 0))) = _
  rw [h]
  rfl

theorem aes_gcm_new_ghash_subkey_witness :
    (AesGcm.new idE).gh = GhashTable.new (beBytesToNat (idE (List.replicate 16 0)))
    ∧ (AesGcm.new idE).gh = (AesGcm.new idE).gh :=
  ⟨(aes_gcm_new_ghash_subkey idE idE).1,
   (aes_gcm_new_ghash_subkey idE idE).2.2 rfl⟩

/-- AesGcm::decrypt in terms of the recomputed tag: the comparison
target is gcmTag over the associated data and the (still encrypted)
input buffer. -/
theorem decrypt_eq (g : AesGcm) (nonce aad buf tag : List Nat) :
    AesGcm.decrypt g nonce aad buf tag =
      if ct_equal (AesGcm.gcmTag g nonce aad buf) tag
      then (.ok (), (lowGcmDecrypt g.key g.gh.h (AesGcm.nonce_to_y0 nonce) aad buf).1)
      else (.error .DecryptFailed, List.replicate buf.length 0) := rfl

/-- C2: whenever the recomputed tag differs from the supplied tag,
AesGcm::decrypt returns DecryptFailed with the entire in-place buffer
overwritten by zero bytes. -/
theorem aes_gcm_decrypt_zeroizes (g : AesGcm) (nonce aad buf tag : List Nat)
    (h : AesGcm.gcmTag g nonce aad buf ≠ tag) :
    AesGcm.decrypt g nonce aad buf tag
      = (.error .DecryptFailed, List.replicate buf.length 0) := by
  rw [decrypt_eq, if_neg]
  simp [ct_equal, h]

theorem aes_gcm_decrypt_zeroizes_witness :
    AesGcm.gcmTag gcmW nonceW [] [1, 2, 3] ≠ List.replicate 16 0 ∧
    AesGcm.decrypt gcmW nonceW [] [1, 2, 3] (List.replicate 16 0)
      = (.error .DecryptFailed, List.replicate 3 0) :=
  ⟨by decide,
   aes_gcm_decrypt_zeroizes gcmW nonceW [] [1, 2, 3] (List.replicate 16 0) (by decide)⟩

/-- C9: decrypt succeeds exactly when the recomputed tag equals the
supplied tag; on success the buffer holds the CTR-decrypted plaintext
(not zeros), and DecryptFailed is the only error decrypt returns. -/
theorem aes_gcm_decrypt_ok_iff (g : AesGcm) (nonce aad buf tag : List Nat) :
    ((AesGcm.decrypt g nonce aad buf tag).1 = .ok ()
       ↔ AesGcm.gcmTag g nonce aad buf = tag)
    ∧ ((AesGcm.decrypt g nonce aad buf tag).1 = .ok () →
        (AesGcm.decrypt g nonce aad buf tag).2
          = (lowGcmDecrypt g.key g.gh.h (AesGcm.nonce_to_y0 nonce) aad buf).1)
    ∧ (∀ err, (AesGcm.decrypt g nonce aad buf tag).1 = .error err
        → err = .DecryptFailed) := by
  rw [decrypt_eq]
  by_cases h : AesGcm.gcmTag g nonce aad buf = tag
  · rw [if_pos (by simp [ct_equal, h])]
    refine ⟨⟨fun _ => h, fun _ => rfl⟩, fun _ => rfl, fun err he => ?_⟩
    exact absurd he (by simp)
  · rw [if_neg (by simp [ct_equal, h])]
    refine ⟨⟨fun he => absurd he (by simp), fun hh => absurd hh h⟩,
            fun he => absurd he (by simp), fun err he => ?_⟩
    injection he with he
    exact he.symm

theorem aes_gcm_decrypt_ok_iff_witness :
    (AesGcm.decrypt gcmW nonceW [] [] (AesGcm.gcmTag gcmW nonceW [] [])).1 = .ok () :=
  (aes_gcm_decrypt_ok_iff gcmW nonceW [] [] (AesGcm.gcmTag gcmW nonceW [] [])).1.mpr rfl

theorem be32_length (v : Nat) : (be32 v).length = 4 := by simp [be32]

theorem ctrPad_length (E : AesKey) (hE : ∀ b, b.length = 16 → (E b).length = 16)
    (n12 : List Nat) (hn12 : n12.length = 12) (c : Nat) :
    (E (n12 ++ be32 c)).length = 16 :=
  hE _ (by simp [hn12, be32_length])

theorem ctrApplyGo_nil (E : AesKey) (n12 : List Nat) :
    ∀ fuel ctr, ctrApplyGo E n12 fuel ctr [] = [] := by
  intro fuel ctr
  cases fuel <;> simp [ctrApplyGo]

theorem ctrApplyGo_length (E : AesKey) (hE : ∀ b, b.length = 16 → (E b).length = 16)
    (n12 : List Nat) (hn12 : n12.length = 12) :
    ∀ (fuel : Nat) (ctr : Nat) (buf : List Nat), buf.length ≤ fuel →
      (ctrApplyGo E n12 fuel ctr buf).length = buf.length := by
  intro fuel
  induction fuel with
  | zero =>
    intro ctr buf hb
    have : buf = [] := List.eq_nil_of_length_eq_zero (by omega)
    subst this
    simp [ctrApplyGo]
  | succ f ih =>
    intro ctr buf hb
    rw [ctrApplyGo]
    by_cases h0 : buf.length = 0
    · rw [if_pos h0]
      simp only [List.length_nil]
      omega
    · rw [if_neg h0]
      rw [List.length_append, List.length_zipWith, List.length_take,
        ctrPad_length E hE n12 hn12,
        ih (ctr + 1) (buf.drop 16) (by rw [List.length_drop]; omega),
        List.length_drop]
      omega

theorem zipWith_xor_cancel :
    ∀ (a k : List Nat), a.length ≤ k.length →
      List.zipWith Nat.xor (List.zipWith Nat.xor a k) k = a := by
  intro a
  induction a with
  | nil => intro k _; simp
  | cons x xs ih =>
    intro k hk
    cases k with
    | nil => simp at hk
    | cons y ys =>
      simp only [List.zipWith_cons_cons, List.cons.injEq]
      constructor
      · show x ^^^ y ^^^ y = x
        rw [Nat.xor_assoc, Nat.xor_self, Nat.xor_zero]
      · exact ih ys (by simpa using hk)

theorem ctrApplyGo_invol (E : AesKey) (hE : ∀ b, b.length = 16 → (E b).length = 16)
    (n12 : List Nat) (hn12 : n12.length = 12) :
    ∀ (fuel : Nat) (ctr : Nat) (buf : List Nat), buf.length ≤ fuel →
      ctrApplyGo E n12 fuel ctr (ctrApplyGo E n12 fuel ctr buf) = buf := by
  intro fuel
  induction fuel with
  | zero =>
    intro ctr buf hb
    have hnil : buf = [] := List.eq_nil_of_length_eq_zero (by omega)
    subst hnil
    simp [ctrApplyGo]
  | succ f ih =>
    intro ctr buf hb
    by_cases h0 : buf.length = 0
    · have hnil : buf = [] := List.eq_nil_of_length_eq_zero h0
      subst hnil
      simp [ctrApplyGo]
    · have hpad : (E (n12 ++ be32 (ctr % 2 ^ 32))).length = 16 :=
        ctrPad_length E hE n12 hn12 _
      have hunfold : ctrApplyGo E n12 (f + 1) ctr buf
          = List.zipWith Nat.xor (buf.take 16) (E (n12 ++ be32 (ctr % 2 ^ 32)))
            ++ ctrApplyGo E n12 f (ctr + 1) (buf.drop 16) := by
        rw [ctrApplyGo, if_neg h0]
      have hc1len : (List.zipWith Nat.xor (buf.take 16)
            (E (n12 ++ be32 (ctr % 2 ^ 32)))).length = min buf.length 16 := by
        rw [List.length_zipWith, List.length_take, hpad]
        omega
      rw [hunfold]
      by_cases h16 : buf.length ≤ 16
      · -- single (possibly partial) block
        have hdrop : buf.drop 16 = [] := List.drop_eq_nil_of_le h16
        rw [hdrop, ctrApplyGo_nil, List.append_nil]
        have houter : ctrApplyGo E n12 (f + 1) ctr
              (List.zipWith Nat.xor (buf.take 16) (E (n12 ++ be32 (ctr % 2 ^ 32))))
            = List.zipWith Nat.xor
                ((List.zipWith Nat.xor (buf.take 16)
                  (E (n12 ++ be32 (ctr % 2 ^ 32)))).take 16)
                (E (n12 ++ be32 (ctr % 2 ^ 32)))
              ++ ctrApplyGo E n12 f (ctr + 1)
                ((List.zipWith Nat.xor (buf.take 16)
                  (E (n12 ++ be32 (ctr % 2 ^ 32)))).drop 16) := by
          rw [ctrApplyGo, if_neg (by omega)]
        rw [houter, List.take_of_length_le (by omega), List.drop_eq_nil_of_le (by omega),
          ctrApplyGo_nil, List.append_nil,
          zipWith_xor_cancel _ _ (by rw [List.length_take, hpad]; omega),
          List.take_of_length_le h16]
      · -- a full block plus a nonempty remainder
        have hc1l : (List.zipWith Nat.xor (buf.take 16)
              (E (n12 ++ be32 (ctr % 2 ^ 32)))).length = 16 := by omega
        have hrlen : (ctrApplyGo E n12 f (ctr + 1) (buf.drop 16)).length
            = buf.length - 16 := by
          rw [ctrApplyGo_length E hE n12 hn12 f (ctr + 1) (buf.drop 16)
            (by rw [List.length_drop]; omega)]
          rw [List.length_drop]
        have houter : ctrApplyGo E n12 (f + 1) ctr
              (List.zipWith Nat.xor (buf.take 16) (E (n12 ++ be32 (ctr % 2 ^ 32)))
                ++ ctrApplyGo E n12 f (ctr + 1) (buf.drop 16))
            = List.zipWith Nat.xor
                ((List.zipWith Nat.xor (buf.take 16) (E (n12 ++ be32 (ctr % 2 ^ 32)))
                  ++ ctrApplyGo E n12 f (ctr + 1) (buf.drop 16)).take 16)
                (E (n12 ++ be32 (ctr % 2 ^ 32)))
              ++ ctrApplyGo E n12 f (ctr + 1)
                ((List.zipWith Nat.xor (buf.take 16) (E (n12 ++ be32 (ctr % 2 ^ 32)))
                  ++ ctrApplyGo E n12 f (ctr + 1) (buf.drop 16)).drop 16) := by
          rw [ctrApplyGo, if_neg (by rw [List.length_append, hc1l]; omega)]
        rw [houter, List.take_left' hc1l, List.drop_left' hc1l,
          zipWith_xor_cancel _ _ (by rw [List.length_take, hpad]; omega),
          ih (ctr + 1) (buf.drop 16) (by rw [List.length_drop]; omega)]
        exact List.take_append_drop 16 buf

theorem ctrApply_length (E : AesKey) (hE : ∀ b, b.length = 16 → (E b).length = 16)
    (n12 : List Nat) (hn12 : n12.length = 12) (ctr : Nat) (buf : List Nat) :
    (ctrApply E n12 ctr buf).length = buf.length :=
  ctrApplyGo_length E hE n12 hn12 buf.length ctr buf le_rfl

theorem ctrApply_invol (E : AesKey) (hE : ∀ b, b.length = 16 → (E b).length = 16)
    (n12 : List Nat) (hn12 : n12.length = 12) (ctr : Nat) (buf : List Nat) :
    ctrApply E n12 ctr (ctrApply E n12 ctr buf) = buf := by
  have h1 : (ctrApply E n12 ctr buf).length = buf.length :=
    ctrApply_length E hE n12 hn12 ctr buf
  show ctrApplyGo E n12 (ctrApply E n12 ctr buf).length ctr (ctrApply E n12 ctr buf) = buf
  rw [h1]
  exact ctrApplyGo_invol E hE n12 hn12 buf.length ctr buf le_rfl

/-- AesGcm::encrypt unfolded: the ciphertext is the CTR keystream
applied from counter Y0 + 1, and the tag is GHASH of AAD, ciphertext and
the length block, XORed with E(Y0). -/
theorem encrypt_eq (g : AesGcm) (nonce aad buf : List Nat) :
    AesGcm.encrypt g nonce aad buf
      = (ctrApply g.key ((AesGcm.nonce_to_y0 nonce).take 12)
           (beBytesToNat ((AesGcm.nonce_to_y0 nonce).drop 12) + 1) buf,
         List.zipWith Nat.xor
           (natToBe16 (ghashAdd g.gh.h
             (ghashBlocks g.gh.h (ghashBlocks g.gh.h 0 aad)
               (ctrApply g.key ((AesGcm.nonce_to_y0 nonce).take 12)
                 (beBytesToNat ((AesGcm.nonce_to_y0 nonce).drop 12) + 1) buf))
             (be64 (aad.length * 8) ++ be64 (buf.length * 8))))
           (g.key (AesGcm.nonce_to_y0 nonce))) := rfl

/-- C4: AES-GCM round trip.  Encrypting any message and then decrypting
the produced ciphertext with the same key, nonce, AAD and the produced
tag succeeds and restores the original message in the buffer. -/
theorem aes_gcm_roundtrip (E : AesKey) (hE : ∀ b, b.length = 16 → (E b).length = 16)
    (nonce aad buf : List Nat) (hn : nonce.length = 12) :
    AesGcm.decrypt (AesGcm.new E) nonce aad
        ((AesGcm.new E).encrypt nonce aad buf).1
        ((AesGcm.new E).encrypt nonce aad buf).2
      = (.ok (), buf) := by
  have hn12 : ((AesGcm.nonce_to_y0 nonce).take 12).length = 12 := by
    rw [List.length_take, nonce_to_y0_length nonce hn]
    omega
  have hEkey : ∀ b, b.length = 16 → (((AesGcm.new E).key) b).length = 16 := hE
  have hctlen : (ctrApply (AesGcm.new E).key ((AesGcm.nonce_to_y0 nonce).take 12)
        (beBytesToNat ((AesGcm.nonce_to_y0 nonce).drop 12) + 1) buf).length
      = buf.length :=
    ctrApply_length (AesGcm.new E).key hEkey _ hn12 _ buf
  have htag : AesGcm.gcmTag (AesGcm.new E) nonce aad
        ((AesGcm.new E).encrypt nonce aad buf).1
      = ((AesGcm.new E).encrypt nonce aad buf).2 := by
    simp only [AesGcm.gcmTag, encrypt_eq]
    rw [hctlen]
  rw [decrypt_eq, if_pos (by simp [ct_equal, htag])]
  have hpt : (lowGcmDecrypt (AesGcm.new E).key (AesGcm.new E).gh.h
        (AesGcm.nonce_to_y0 nonce) aad ((AesGcm.new E).encrypt nonce aad buf).1).1
      = buf := by
    show ctrApply (AesGcm.new E).key ((AesGcm.nonce_to_y0 nonce).take 12)
        (beBytesToNat ((AesGcm.nonce_to_y0 nonce).drop 12) + 1)
        ((AesGcm.new E).encrypt nonce aad buf).1 = buf
    simp only [encrypt_eq]
    exact ctrApply_invol (AesGcm.new E).key hEkey _ hn12 _ buf
  rw [hpt]

theorem aes_gcm_roundtrip_witness :
    AesGcm.decrypt (AesGcm.new idE) nonceW []
        ((AesGcm.new idE).encrypt nonceW [] [1, 2, 3]).1
        ((AesGcm.new idE).encrypt nonceW [] [1, 2, 3]).2
      = (.ok (), [1, 2, 3]) :=
  aes_gcm_roundtrip idE (fun _ h => h) nonceW [] [1, 2, 3] (by decide)

/-- C5: in encrypt, after the AAD and the ciphertext are absorbed, GHASH
absorbs exactly one 16-byte length block, its first 8 bytes the
big-endian u64 of 8x the AAD length and its last 8 bytes the big-endian
u64 of 8x the ciphertext length, and the result is XORed byte-wise with
E(Y0) to give the tag; decrypt recomputes its comparison tag (gcmTag,
see decrypt_eq) by exactly the same finalization over its input
buffer. -/
theorem aes_gcm_length_block_finalisation (E : AesKey)
    (hE : ∀ b, b.length = 16 → (E b).length = 16)
    (nonce aad buf : List Nat) (hn : nonce.length = 12) :
    (((AesGcm.new E).encrypt nonce aad buf).2
      = List.zipWith Nat.xor
          (natToBe16 (ghashAdd (AesGcm.new E).gh.h
            (ghashBlocks (AesGcm.new E).gh.h
              (ghashBlocks (AesGcm.new E).gh.h 0 aad)
              ((AesGcm.new E).encrypt nonce aad buf).1)
            (be64 (aad.length * 8)
              ++ be64 (((AesGcm.new E).encrypt nonce aad buf).1.length * 8))))
          ((AesGcm.new E).key (AesGcm.nonce_to_y0 nonce)))
    ∧ (be64 (aad.length * 8)).length = 8
    ∧ (be64 (((AesGcm.new E).encrypt nonce aad buf).1.length * 8)).length = 8
    ∧ (∀ data : List Nat,
        AesGcm.gcmTag (AesGcm.new E) nonce aad data
          = List.zipWith Nat.xor
              (natToBe16 (ghashAdd (AesGcm.new E).gh.h
                (ghashBlocks (AesGcm.new E).gh.h
                  (ghashBlocks (AesGcm.new E).gh.h 0 aad) data)
                (be64 (aad.length * 8) ++ be64 (data.length * 8))))
              ((AesGcm.new E).key (AesGcm.nonce_to_y0 nonce))) := by
  have hn12 : ((AesGcm.nonce_to_y0 nonce).take 12).length = 12 := by
    rw [List.length_take, nonce_to_y0_length nonce hn]
    omega
  have hEkey : ∀ b, b.length = 16 → (((AesGcm.new E).key) b).length = 16 := hE
  have hct : ((AesGcm.new E).encrypt nonce aad buf).1.length = buf.length := by
    simp only [encrypt_eq]
    exact ctrApply_length (AesGcm.new E).key hEkey _ hn12 _ buf
  refine ⟨?_, by simp [be64], by simp [be64], fun data => rfl⟩
  rw [hct]
  simp only [encrypt_eq]

theorem aes_gcm_length_block_finalisation_witness :
    ((AesGcm.new idE).encrypt nonceW [] [1, 2, 3]).2
      = List.zipWith Nat.xor
          (natToBe16 (ghashAdd (AesGcm.new idE).gh.h
            (ghashBlocks (AesGcm.new idE).gh.h
              (ghashBlocks (AesGcm.new idE).gh.h 0 [])
              ((AesGcm.new idE).encrypt nonceW [] [1, 2, 3]).1)
            (be64 (List.length ([] : List Nat) * 8)
              ++ be64 (((AesGcm.new idE).encrypt nonceW [] [1, 2, 3]).1.length * 8))))
          ((AesGcm.new idE).key (AesGcm.nonce_to_y0 nonceW)) :=
  (aes_gcm_length_block_finalisation idE (fun _ h => h) nonceW [] [1, 2, 3] (by decide)).1
